import Mathlib

/-!
# Nova — Manager Orchestration Engine and Fragment Store, formalised

A shallow embedding of the Nova conversational-agent runtime
(`engine`, `stores`, and the turn pipeline driven by `examples/chat/main.go`),
together with proofs of the specified properties.

The repository snapshot ships only the type declarations
(`Engine` in the engine package, `Store`/`FragmentStore`/`FragmentFilter`/
`MetadataCondition` in `stores/types.go`) and the chat example; the
implementations of the dependency resolver, the turn pipeline and the
fragment store are not part of the snapshot.  Wherever an operation's body is
missing, its Lean definition is modelled from the specification and the doc
comment says so explicitly.

Go machine integers are modelled as `Nat`/`Int`; `time.Time` values as `Nat`
(a zero value meaning "absent", as in Go); pgvector `float32` embeddings as
`List Int` compared by squared Euclidean distance, which preserves the
ordering facts stated by the specification.
-/

namespace Nova

/-- Identifiers (`id.ID` in the Go source, built by `id.FromString`). -/
abbrev ID := String

/-- `manager.ManagerID`: a stable, unique token per manager. -/
abbrev ManagerID := String

/-- A registered manager as the resolver sees it: its id and the ids it
depends on (`GetID`/`GetDependencies` of the manager contract).  A list of
`ManagerSpec` in registration order is the resolver's input. -/
structure ManagerSpec where
  mid : ManagerID
  deps : List ManagerID
deriving DecidableEq, Repr

/-- Modelled from the spec: `ConfigurationError` carries the offending
manager set (cyclic managers, or managers depending on an unregistered
manager). -/
structure ConfigurationError where
  offending : List ManagerID
deriving DecidableEq, Repr

/-- A manager is ready once every dependency is already in the emitted
order. -/
def readyB (done : List ManagerID) (m : ManagerSpec) : Bool :=
  m.deps.all (fun d => done.contains d)

/-- Extract the first ready manager from the pending list (registration
order is preserved in the remainder) — the stable tie-break of Kahn's
algorithm. -/
def extractReady (done : List ManagerID) :
    List ManagerSpec → Option (ManagerSpec × List ManagerSpec)
  | [] => none
  | m :: ms =>
    if readyB done m then some (m, ms)
    else
      match extractReady done ms with
      | none => none
      | some (r, rest) => some (r, m :: rest)

/-- Modelled from the spec: iterative Kahn's algorithm.  `acc` holds the
emitted prefix in reverse; when no pending manager is ready the remaining
(pending) managers are the offending set. -/
def resolveLoop : Nat → List ManagerSpec → List ManagerID →
    Except ConfigurationError (List ManagerID)
  | _, [], acc => .ok acc.reverse
  | 0, p :: ps, _ => .error ⟨(p :: ps).map ManagerSpec.mid⟩
  | fuel + 1, p :: ps, acc =>
    match extractReady acc (p :: ps) with
    | none => .error ⟨(p :: ps).map ManagerSpec.mid⟩
    | some (m, rest) => resolveLoop fuel rest (m.mid :: acc)

/-- A single manager's dependencies, restricted to the registered set. -/
def depsRegisteredB (specs : List ManagerSpec) (m : ManagerSpec) : Bool :=
  m.deps.all (fun d => (specs.map ManagerSpec.mid).contains d)

/-- Modelled from the spec: the Dependency Resolver.  A dependency on an
unregistered manager is a configuration error; otherwise run Kahn's
algorithm with fuel `specs.length` (enough to empty the pending list). -/
def resolveOrder (specs : List ManagerSpec) :
    Except ConfigurationError (List ManagerID) :=
  if specs.all (depsRegisteredB specs) then
    resolveLoop specs.length specs []
  else
    .error ⟨(specs.filter (fun m => !depsRegisteredB specs m)).map ManagerSpec.mid⟩

/-- The `Engine` struct of the engine package, restricted to the fields the
resolver claims are about: the registered managers and the resolved
`managerOrder`. -/
structure Engine where
  managers : List ManagerSpec
  managerOrder : List ManagerID
deriving DecidableEq, Repr

/-- Modelled from the spec: `engine.New` resolves the manager order at
construction; a resolution failure yields a `ConfigurationError` and no
Engine value. -/
def engineNew (specs : List ManagerSpec) : Except ConfigurationError Engine :=
  match resolveOrder specs with
  | .error e => .error e
  | .ok ord => .ok { managers := specs, managerOrder := ord }

/-- The direct dependency edge of the registered graph: `x` depends on `y`
(so `y` must run before `x`). -/
def DepEdge (specs : List ManagerSpec) (x y : ManagerID) : Prop :=
  ∃ m, m ∈ specs ∧ m.mid = x ∧ y ∈ m.deps

/-- The dependency graph is acyclic: no manager transitively depends on
itself. -/
def Acyclic (specs : List ManagerSpec) : Prop :=
  ∀ x, ¬ Relation.TransGen (DepEdge specs) x x

-- Sanity checks on concrete inputs (the spec's example scenario).
example :
    resolveOrder [⟨"insight", []⟩, ⟨"personality", []⟩] =
      .ok ["insight", "personality"] := rfl

example :
    resolveOrder [⟨"a", ["b"]⟩, ⟨"b", []⟩, ⟨"c", []⟩] =
      .ok ["b", "a", "c"] := rfl

example : resolveOrder [⟨"a", ["b"]⟩, ⟨"b", ["a"]⟩] =
    .error ⟨["a", "b"]⟩ := rfl

example : resolveOrder [⟨"a", ["ghost"]⟩] = .error ⟨["a"]⟩ := rfl

/-! ## Dependency-resolver lemmas -/

theorem extractReady_some_spec {done : List ManagerID} :
    ∀ {pending : List ManagerSpec} {m : ManagerSpec} {rest : List ManagerSpec},
    extractReady done pending = some (m, rest) →
    readyB done m = true ∧
      ∃ l₁ l₂, pending = l₁ ++ m :: l₂ ∧ rest = l₁ ++ l₂ := by
  intro pending
  induction pending with
  | nil => intro m rest h; simp [extractReady] at h
  | cons p ps ih =>
    intro m rest h
    by_cases hr : readyB done p = true
    · simp [extractReady, hr] at h
      obtain ⟨hm, hrest⟩ := h
      exact ⟨hm ▸ hr, [], ps, by simp [hm, hrest]⟩
    · simp [extractReady, hr] at h
      cases he : extractReady done ps with
      | none => rw [he] at h; simp at h
      | some pr =>
        obtain ⟨r, rest'⟩ := pr
        rw [he] at h
        simp at h
        obtain ⟨hm, hrest⟩ := h
        obtain ⟨hready, l₁, l₂, hps, hrest'⟩ := ih (hm ▸ he)
        exact ⟨hready, p :: l₁, l₂, by simp [hps], by simp [← hrest, hrest']⟩

theorem extractReady_none_spec {done : List ManagerID} :
    ∀ {pending : List ManagerSpec}, extractReady done pending = none →
    ∀ m ∈ pending, readyB done m = false := by
  intro pending
  induction pending with
  | nil => intro _ m hm; simp at hm
  | cons p ps ih =>
    intro h m hm
    by_cases hr : readyB done p = true
    · simp [extractReady, hr] at h
    · rcases List.mem_cons.mp hm with hm | hm
      · subst hm; simpa using hr
      · cases he : extractReady done ps with
        | none => exact ih he m hm
        | some pr => simp [extractReady, hr, he] at h

theorem extractReady_perm {done : List ManagerID} {pending rest : List ManagerSpec}
    {m : ManagerSpec} (h : extractReady done pending = some (m, rest)) :
    List.Perm (pending.map ManagerSpec.mid) (m.mid :: rest.map ManagerSpec.mid) := by
  obtain ⟨-, l₁, l₂, hp, hr⟩ := extractReady_some_spec h
  subst hp; subst hr
  simp

theorem extractReady_length {done : List ManagerID} {pending rest : List ManagerSpec}
    {m : ManagerSpec} (h : extractReady done pending = some (m, rest)) :
    pending.length = rest.length + 1 := by
  obtain ⟨-, l₁, l₂, hp, hr⟩ := extractReady_some_spec h
  subst hp; subst hr; simp; omega

theorem extractReady_mem {done : List ManagerID} {pending rest : List ManagerSpec}
    {m : ManagerSpec} (h : extractReady done pending = some (m, rest)) :
    m ∈ pending ∧ ∀ x ∈ rest, x ∈ pending := by
  obtain ⟨-, l₁, l₂, hp, hr⟩ := extractReady_some_spec h
  subst hp; subst hr
  constructor
  · simp
  · intro x hx; simp at hx; rcases hx with hx | hx <;> simp [hx]

theorem resolveLoop_ok_perm :
    ∀ (fuel : Nat) (pending : List ManagerSpec) (acc ord : List ManagerID),
    resolveLoop fuel pending acc = .ok ord →
    ∃ l, ord = acc.reverse ++ l ∧ List.Perm l (pending.map ManagerSpec.mid) := by
  intro fuel
  induction fuel with
  | zero =>
    intro pending acc ord h
    cases pending with
    | nil => simp [resolveLoop] at h; exact ⟨[], by simp [← h]⟩
    | cons p ps => simp [resolveLoop] at h
  | succ fuel ih =>
    intro pending acc ord h
    cases pending with
    | nil => simp [resolveLoop] at h; exact ⟨[], by simp [← h]⟩
    | cons p ps =>
      rw [resolveLoop] at h
      cases he : extractReady acc (p :: ps) with
      | none => rw [he] at h; simp at h
      | some pr =>
        obtain ⟨m, rest⟩ := pr
        rw [he] at h
        obtain ⟨l', hord, hperm⟩ := ih rest (m.mid :: acc) ord h
        refine ⟨m.mid :: l', ?_, ?_⟩
        · simp at hord; simpa using hord
        · exact ((hperm.cons m.mid).trans (extractReady_perm he).symm).symm.symm

theorem resolveLoop_topo :
    ∀ (fuel : Nat) (pending : List ManagerSpec) (acc ord : List ManagerID),
    resolveLoop fuel pending acc = .ok ord →
    ∀ m ∈ pending, ∀ d ∈ m.deps,
      d ∈ acc ∨ ∃ pre post, ord = pre ++ post ∧ d ∈ pre ∧ m.mid ∈ post := by
  intro fuel
  induction fuel with
  | zero =>
    intro pending acc ord h m hm
    cases pending with
    | nil => simp at hm
    | cons p ps => simp [resolveLoop] at h
  | succ fuel ih =>
    intro pending acc ord h m hm d hd
    cases pending with
    | nil => simp at hm
    | cons p ps =>
      rw [resolveLoop] at h
      cases he : extractReady acc (p :: ps) with
      | none => rw [he] at h; simp at h
      | some pr =>
        obtain ⟨m₀, rest⟩ := pr
        rw [he] at h
        obtain ⟨hready, l₁, l₂, hp, hr⟩ := extractReady_some_spec he
        -- either m is the extracted manager or it survives into rest
        have hcase : m = m₀ ∨ m ∈ rest := by
          rw [hp] at hm; rw [hr]
          simp at hm ⊢
          tauto
        rcases hcase with hcase | hcase
        · -- the extracted manager is ready: all deps already emitted
          subst hcase
          left
          have := hready
          simp [readyB, List.all_eq_true] at this
          exact this d hd
        · have hrec := ih rest (m₀.mid :: acc) ord h m hcase d hd
          rcases hrec with hacc | hsplit
          · rcases List.mem_cons.mp hacc with hdm | hdm
            · -- d is the manager emitted at this step
              right
              obtain ⟨l', hord, hperm⟩ := resolveLoop_ok_perm fuel rest (m₀.mid :: acc) ord h
              refine ⟨(m₀.mid :: acc).reverse, l', by simpa using hord, ?_, ?_⟩
              · simp [hdm]
              · have hmid : m.mid ∈ rest.map ManagerSpec.mid := List.mem_map_of_mem _ hcase
                exact hperm.symm.mem_iff.mp hmid
            · exact Or.inl hdm
          · exact Or.inr hsplit

/-- In a finite nonempty set in which every element has an out-edge staying
inside the set, some element lies on a cycle. -/
theorem cycle_of_all_succ {E : ManagerID → ManagerID → Prop}
    (P : List ManagerID) (hne : P ≠ [])
    (h : ∀ x ∈ P, ∃ y ∈ P, E x y) :
    ∃ x ∈ P, Relation.TransGen E x x := by
  classical
  choose f hfP hfE using h
  let g : {x // x ∈ P} → {x // x ∈ P} := fun s => ⟨f s.1 s.2, hfP s.1 s.2⟩
  have hgE : ∀ s : {x // x ∈ P}, E s.1 (g s).1 := fun s => hfE s.1 s.2
  let x₀ : {x // x ∈ P} := ⟨P.head hne, List.head_mem hne⟩
  let F : Nat → {x // x ∈ P} := fun k => g^[k] x₀
  have hFP : ∀ k, (F k).1 ∈ P := fun k => (F k).2
  have hstep : ∀ i, Relation.TransGen E (F i).1 (F (i + 1)).1 := by
    intro i
    have hit : F (i + 1) = g (F i) := Function.iterate_succ_apply' g i x₀
    rw [hit]
    exact Relation.TransGen.single (hgE (F i))
  have hpath : ∀ k, 0 < k → ∀ i, Relation.TransGen E (F i).1 (F (i + k)).1 := by
    intro k
    induction k with
    | zero => intro h0; exact absurd h0 (by omega)
    | succ k ih =>
      intro _ i
      by_cases hk : 0 < k
      · refine (ih hk i).trans ?_
        have := hstep (i + k)
        rwa [Nat.add_assoc] at this
      · have hk0 : k = 0 := by omega
        subst hk0
        exact hstep i
  obtain ⟨i, hi, j, hj, hij, heq⟩ :=
    Finset.exists_ne_map_eq_of_card_lt_of_maps_to
      (s := Finset.range (P.toFinset.card + 1)) (t := P.toFinset)
      (by simp) (fun k _ => List.mem_toFinset.mpr (hFP k))
  rcases Nat.lt_or_ge i j with hlt | hge
  · refine ⟨(F i).1, hFP i, ?_⟩
    have hp := hpath (j - i) (by omega) i
    rw [show i + (j - i) = j by omega] at hp
    rwa [← heq] at hp
  · have hlt : j < i := by omega
    refine ⟨(F j).1, hFP j, ?_⟩
    have hp := hpath (i - j) (by omega) j
    rw [show j + (i - j) = i by omega] at hp
    rwa [heq] at hp

/-- Kahn's algorithm cannot get stuck on an acyclic graph: with enough fuel
and every pending dependency either emitted or still pending, it succeeds. -/
theorem resolveLoop_complete (specs : List ManagerSpec) (hacy : Acyclic specs) :
    ∀ (fuel : Nat) (pending : List ManagerSpec) (acc : List ManagerID),
    pending.length ≤ fuel →
    (∀ m ∈ pending, m ∈ specs) →
    (∀ m ∈ pending, ∀ d ∈ m.deps, d ∈ acc ∨ d ∈ pending.map ManagerSpec.mid) →
    ∃ ord, resolveLoop fuel pending acc = .ok ord := by
  intro fuel
  induction fuel with
  | zero =>
    intro pending acc hlen _ _
    have : pending = [] := List.length_eq_zero.mp (by omega)
    subst this
    exact ⟨acc.reverse, rfl⟩
  | succ fuel ih =>
    intro pending acc hlen hsub hinv
    cases pending with
    | nil => exact ⟨acc.reverse, rfl⟩
    | cons p ps =>
      cases he : extractReady acc (p :: ps) with
      | none =>
        -- stuck: every pending manager has an unmet dependency that is
        -- itself pending — a cycle, contradicting acyclicity
        exfalso
        have hstuck : ∀ x ∈ (p :: ps).map ManagerSpec.mid,
            ∃ y ∈ (p :: ps).map ManagerSpec.mid, DepEdge specs x y := by
          intro x hx
          obtain ⟨m, hm, hmx⟩ := List.mem_map.mp hx
          have hrdy := extractReady_none_spec he m hm
          simp [readyB, List.all_eq_true] at hrdy
          obtain ⟨d, hd, hdacc⟩ := hrdy
          have := hinv m hm d hd
          rcases this with hda | hdp
          · exact absurd hda hdacc
          · exact ⟨d, hdp, m, hsub m hm, hmx, hd⟩
        obtain ⟨x, -, hcyc⟩ :=
          cycle_of_all_succ ((p :: ps).map ManagerSpec.mid) (by simp) hstuck
        exact hacy x hcyc
      | some pr =>
        obtain ⟨m, rest⟩ := pr
        have hlen' : rest.length ≤ fuel := by
          have := extractReady_length he
          simp at hlen this
          omega
        have hsub' : ∀ x ∈ rest, x ∈ specs :=
          fun x hx => hsub x ((extractReady_mem he).2 x hx)
        have hinv' : ∀ x ∈ rest, ∀ d ∈ x.deps,
            d ∈ (m.mid :: acc) ∨ d ∈ rest.map ManagerSpec.mid := by
          intro x hx d hd
          have hxp : x ∈ p :: ps := (extractReady_mem he).2 x hx
          rcases hinv x hxp d hd with hda | hdp
          · exact Or.inl (List.mem_cons_of_mem _ hda)
          · have := (extractReady_perm he).mem_iff.mp hdp
            rcases List.mem_cons.mp this with hdm | hdm
            · exact Or.inl (hdm ▸ List.mem_cons_self _ _)
            · exact Or.inr hdm
        obtain ⟨ord, hord⟩ := ih rest (m.mid :: acc) hlen' hsub' hinv'
        exact ⟨ord, by rw [resolveLoop, he]; exact hord⟩

theorem resolveLoop_nodeps :
    ∀ (fuel : Nat) (pending : List ManagerSpec) (acc : List ManagerID),
    pending.length ≤ fuel → (∀ m ∈ pending, m.deps = []) →
    resolveLoop fuel pending acc = .ok (acc.reverse ++ pending.map ManagerSpec.mid) := by
  intro fuel
  induction fuel with
  | zero =>
    intro pending acc hlen _
    have : pending = [] := List.length_eq_zero.mp (by omega)
    subst this
    simp [resolveLoop]
  | succ fuel ih =>
    intro pending acc hlen hdeps
    cases pending with
    | nil => simp [resolveLoop]
    | cons p ps =>
      have hready : readyB acc p = true := by
        simp [readyB, hdeps p (List.mem_cons_self _ _)]
      have hex : extractReady acc (p :: ps) = some (p, ps) := by
        simp [extractReady, hready]
      rw [resolveLoop, hex]
      show resolveLoop fuel ps (p.mid :: acc) = _
      rw [ih ps (p.mid :: acc) (by simp at hlen ⊢; omega)
        (fun m hm => hdeps m (List.mem_cons_of_mem _ hm))]
      simp

theorem resolveLoop_error_nonempty :
    ∀ (fuel : Nat) (pending : List ManagerSpec) (acc : List ManagerID)
      (e : ConfigurationError),
    resolveLoop fuel pending acc = .error e → e.offending ≠ [] := by
  intro fuel
  induction fuel with
  | zero =>
    intro pending acc e h
    cases pending with
    | nil => simp [resolveLoop] at h
    | cons p ps => simp [resolveLoop] at h; simp [← h]
  | succ fuel ih =>
    intro pending acc e h
    cases pending with
    | nil => simp [resolveLoop] at h
    | cons p ps =>
      rw [resolveLoop] at h
      cases he : extractReady acc (p :: ps) with
      | none => rw [he] at h; simp at h; simp [← h]
      | some pr => obtain ⟨m, rest⟩ := pr; rw [he] at h; exact ih rest (m.mid :: acc) e h

theorem resolveOrder_error_nonempty {specs : List ManagerSpec}
    {e : ConfigurationError} (h : resolveOrder specs = .error e) :
    e.offending ≠ [] := by
  rw [resolveOrder] at h
  by_cases hg : specs.all (depsRegisteredB specs) = true
  · rw [if_pos hg] at h
    exact resolveLoop_error_nonempty _ _ _ _ h
  · rw [if_neg hg] at h
    simp only [Except.error.injEq] at h
    subst h
    simp only [ne_eq, List.map_eq_nil_iff, List.filter_eq_nil_iff]
    intro hall
    apply hg
    simp only [List.all_eq_true]
    intro m hm
    have := hall m hm
    simpa using this

theorem resolveOrder_ok_perm {specs : List ManagerSpec} {ord : List ManagerID}
    (h : resolveOrder specs = .ok ord) :
    List.Perm ord (specs.map ManagerSpec.mid) := by
  rw [resolveOrder] at h
  by_cases hg : specs.all (depsRegisteredB specs) = true
  · rw [if_pos hg] at h
    obtain ⟨l, hord, hperm⟩ := resolveLoop_ok_perm _ _ _ _ h
    simpa [hord] using hperm
  · rw [if_neg hg] at h; simp at h

theorem resolveOrder_topo {specs : List ManagerSpec} {ord : List ManagerID}
    (h : resolveOrder specs = .ok ord) :
    ∀ m ∈ specs, ∀ d ∈ m.deps,
      ∃ pre post, ord = pre ++ post ∧ d ∈ pre ∧ m.mid ∈ post := by
  rw [resolveOrder] at h
  by_cases hg : specs.all (depsRegisteredB specs) = true
  · rw [if_pos hg] at h
    intro m hm d hd
    rcases resolveLoop_topo _ _ _ _ h m hm d hd with hacc | hsplit
    · simp at hacc
    · exact hsplit
  · rw [if_neg hg] at h; simp at h

/-- If one element of a duplicate-free list splits strictly before another,
its index is strictly smaller. -/
theorem indexOf_lt_of_split {ord pre post : List ManagerID} {x y : ManagerID}
    (hnd : ord.Nodup) (hsplit : ord = pre ++ post) (hy : y ∈ pre) (hx : x ∈ post) :
    List.indexOf y ord < List.indexOf x ord := by
  subst hsplit
  have hdisj := (List.nodup_append.mp hnd).2.2
  have hxpre : x ∉ pre := fun hc => hdisj hc hx
  rw [List.indexOf_append_of_mem hy, List.indexOf_append_of_not_mem hxpre]
  calc List.indexOf y pre < pre.length := List.indexOf_lt_length.mpr hy
    _ ≤ pre.length + List.indexOf x post := Nat.le_add_right _ _

/-- A successfully resolved registration set has an acyclic dependency
graph: every edge strictly decreases the position in the resolved order. -/
theorem resolveOrder_ok_acyclic {specs : List ManagerSpec} {ord : List ManagerID}
    (hnd : (specs.map ManagerSpec.mid).Nodup)
    (h : resolveOrder specs = .ok ord) : Acyclic specs := by
  have hperm := resolveOrder_ok_perm h
  have hordnd : ord.Nodup := hperm.symm.nodup hnd
  have hedge : ∀ x y, DepEdge specs x y →
      List.indexOf y ord < List.indexOf x ord := by
    intro x y he
    obtain ⟨m, hm, hmx, hy⟩ := he
    obtain ⟨pre, post, hsplit, hpre, hpost⟩ := resolveOrder_topo h m hm y hy
    exact hmx ▸ indexOf_lt_of_split hordnd hsplit hpre hpost
  have hpath : ∀ x y, Relation.TransGen (DepEdge specs) x y →
      List.indexOf y ord < List.indexOf x ord := by
    intro x y hxy
    induction hxy with
    | single he => exact hedge _ _ he
    | tail _ he ih => exact (hedge _ _ he).trans ih
  intro x hx
  exact absurd (hpath x x hx) (by omega)

/-- An edge-free dependency graph is acyclic (any path ends in an edge). -/
theorem acyclic_of_no_deps (specs : List ManagerSpec)
    (h : ∀ m ∈ specs, m.deps = []) : Acyclic specs := by
  intro x hx
  cases hx with
  | single he =>
    obtain ⟨m, hm, -, hd⟩ := he
    rw [h m hm] at hd
    simp at hd
  | tail _ he =>
    obtain ⟨m, hm, -, hd⟩ := he
    rw [h m hm] at hd
    simp at hd

/-! ## C1 and C2 -/

/-- C1: for every registered manager set with unique ids, registered
dependencies and an acyclic dependency graph, Engine construction succeeds
and the resolved `managerOrder` (i) is a total order on the registered
manager ids — each id occurs exactly once, (ii) places every manager
strictly after all managers it depends on, (iii) is deterministic — any
successful resolution of the same registration set is the same order, and
(iv) when no ordering constraint exists at all (no declared dependencies),
coincides with the registration order, the stable tie-break. -/
theorem engineNew_resolved_order_correct (specs : List ManagerSpec)
    (hnd : (specs.map ManagerSpec.mid).Nodup)
    (hreg : ∀ m ∈ specs, ∀ d ∈ m.deps, d ∈ specs.map ManagerSpec.mid)
    (hacy : Acyclic specs) :
    ∃ eng : Engine, engineNew specs = .ok eng ∧
      List.Perm eng.managerOrder (specs.map ManagerSpec.mid) ∧
      eng.managerOrder.Nodup ∧
      (∀ m ∈ specs, ∀ d ∈ m.deps,
        List.indexOf d eng.managerOrder < List.indexOf m.mid eng.managerOrder) ∧
      (∀ eng' : Engine, engineNew specs = .ok eng' →
        eng'.managerOrder = eng.managerOrder) ∧
      ((∀ m ∈ specs, m.deps = []) →
        eng.managerOrder = specs.map ManagerSpec.mid) := by
  have hguard : specs.all (depsRegisteredB specs) = true := by
    simp only [List.all_eq_true, depsRegisteredB]
    intro m hm d hd
    simpa using hreg m hm d hd
  obtain ⟨ord, hord⟩ := by
    refine resolveLoop_complete specs hacy specs.length specs [] (le_refl _)
      (fun m hm => hm) ?_
    intro m hm d hd
    exact Or.inr (hreg m hm d hd)
  have hres : resolveOrder specs = .ok ord := by
    rw [resolveOrder, if_pos hguard]; exact hord
  have hperm := resolveOrder_ok_perm hres
  have hordnd : ord.Nodup := hperm.symm.nodup hnd
  refine ⟨⟨specs, ord⟩, ?_, hperm, hordnd, ?_, ?_, ?_⟩
  · rw [engineNew, hres]
  · intro m hm d hd
    obtain ⟨pre, post, hsplit, hpre, hpost⟩ := resolveOrder_topo hres m hm d hd
    exact indexOf_lt_of_split hordnd hsplit hpre hpost
  · intro eng' heng'
    rw [engineNew, hres] at heng'
    simp at heng'
    rw [← heng']
  · intro hdeps
    have := resolveLoop_nodeps specs.length specs [] (le_refl _) hdeps
    rw [hord] at this
    simpa using (Except.ok.injEq _ _ ▸ this : _)

/-- C1 witness: the spec's example scenario — insight and personality with
no dependencies resolve, in registration order. -/
theorem engineNew_resolved_order_correct_witness :
    ∃ eng : Engine,
      engineNew [⟨"insight", []⟩, ⟨"personality", []⟩] = .ok eng ∧
      List.Perm eng.managerOrder
        ([⟨"insight", []⟩, ⟨"personality", []⟩].map ManagerSpec.mid) ∧
      eng.managerOrder.Nodup ∧
      (∀ m ∈ [(⟨"insight", []⟩ : ManagerSpec), ⟨"personality", []⟩],
        ∀ d ∈ m.deps,
        List.indexOf d eng.managerOrder < List.indexOf m.mid eng.managerOrder) ∧
      (∀ eng' : Engine,
        engineNew [⟨"insight", []⟩, ⟨"personality", []⟩] = .ok eng' →
        eng'.managerOrder = eng.managerOrder) ∧
      ((∀ m ∈ [(⟨"insight", []⟩ : ManagerSpec), ⟨"personality", []⟩],
          m.deps = []) →
        eng.managerOrder =
          [⟨"insight", []⟩, ⟨"personality", []⟩].map ManagerSpec.mid) :=
  engineNew_resolved_order_correct _ (by decide) (by decide)
    (acyclic_of_no_deps _ (by decide))

/-- C2: a registered manager set whose dependency graph contains a cycle
makes Engine construction fail with a `ConfigurationError` carrying a
nonempty offending manager set, and no Engine value is produced. -/
theorem engineNew_cycle_fails (specs : List ManagerSpec)
    (hnd : (specs.map ManagerSpec.mid).Nodup)
    (x : ManagerID) (hcyc : Relation.TransGen (DepEdge specs) x x) :
    ∃ e : ConfigurationError, engineNew specs = .error e ∧ e.offending ≠ [] ∧
      ∀ eng : Engine, engineNew specs ≠ .ok eng := by
  cases hres : resolveOrder specs with
  | ok ord =>
    exact absurd hcyc (resolveOrder_ok_acyclic hnd hres x)
  | error e =>
    refine ⟨e, ?_, resolveOrder_error_nonempty hres, ?_⟩
    · rw [engineNew, hres]
    · intro eng h
      rw [engineNew, hres] at h
      simp at h

/-- C2 witness: two managers depending on each other. -/
theorem engineNew_cycle_fails_witness :
    ∃ e : ConfigurationError,
      engineNew [⟨"a", ["b"]⟩, ⟨"b", ["a"]⟩] = .error e ∧ e.offending ≠ [] ∧
      ∀ eng : Engine, engineNew [⟨"a", ["b"]⟩, ⟨"b", ["a"]⟩] ≠ .ok eng :=
  engineNew_cycle_fails _ (by decide) "a"
    (Relation.TransGen.tail
      (Relation.TransGen.single ⟨⟨"a", ["b"]⟩, by simp, rfl, by simp⟩)
      ⟨⟨"b", ["a"]⟩, by simp, rfl, by simp⟩)

/-! ## Fragment Store data model (`stores/types.go`, `db` package) -/

/-- `db.FragmentTable`: the named fragment partitions used by the chat
example (`db.FragmentTableInteraction` and friends). -/
inductive FragmentTable
  | interaction
  | personality
  | insight
deriving DecidableEq, Repr

/-- A scalar metadata value (Go `interface{}` restricted to the scalar
shapes the metadata operators compare). -/
inductive MetaScalar
  | s (v : String)
  | n (v : Int)
deriving DecidableEq, Repr

/-- A metadata value: a scalar or an array of scalars (arrays are what the
`contains` and `in` operators inspect). -/
inductive MetaValue
  | scalar (v : MetaScalar)
  | arr (vs : List MetaScalar)
deriving DecidableEq, Repr

/-- `stores.MetadataOperator` is a string type in the source. -/
abbrev MetadataOperator := String

def MetadataOpEquals : MetadataOperator := "="
def MetadataOpNotEquals : MetadataOperator := "!="
def MetadataOpContains : MetadataOperator := "?"
def MetadataOpIn : MetadataOperator := "IN"

/-- `stores.MetadataCondition` (source field names `Key`, `Value`,
`Operator`). -/
structure MetadataCondition where
  Key : String
  Value : MetaValue
  Operator : MetadataOperator
deriving DecidableEq, Repr

/-- `db.Actor` as used by the chat example (`ID`, `Name`, `Assistant`). -/
structure Actor where
  ID : Nova.ID
  Name : String
  Assistant : Bool := false
deriving DecidableEq, Repr

/-- `db.Session` as used by the chat example. -/
structure Session where
  ID : Nova.ID
deriving DecidableEq, Repr

/-- `db.Fragment`: content, optional embedding, metadata, creation time.
`CreatedAt` is a `time.Time` modelled as `Nat`, with `0` for the Go zero
value ("absent"); embeddings are `List Int` (see the file header). -/
structure Fragment where
  ID : Nova.ID
  ActorID : Nova.ID
  SessionID : Nova.ID
  Content : String
  Embedding : Option (List Int)
  Metadata : List (String × MetaValue)
  CreatedAt : Nat
deriving DecidableEq, Repr

/-- `stores.FragmentFilter` (source field names; `Limit` is a Go `int`,
modelled as `Nat`). -/
structure FragmentFilter where
  ActorID : Option ID
  SessionID : Option ID
  Metadata : List MetadataCondition
  StartTime : Option Nat
  EndTime : Option Nat
  Embedding : Option (List Int)
  Limit : Nat
deriving DecidableEq, Repr

/-- Squared Euclidean distance between two embedding vectors — a monotone
stand-in for the pgvector distance, which is all the ordering claims
need. -/
def sqDist (a b : List Int) : Nat :=
  (List.zipWith (fun x y => ((x - y) * (x - y)).toNat) a b).sum

/-- Distance rank of a fragment for a query embedding; fragments without an
embedding rank last (`⊤`), as SQL `NULLS LAST`. -/
def distRank (e : List Int) (g : Fragment) : WithTop Nat :=
  match g.Embedding with
  | some v => (sqDist v e : WithTop Nat)
  | none => ⊤

/-- "closer to the query embedding" — ascending vector distance. -/
def distLE (e : List Int) (a b : Fragment) : Prop :=
  distRank e a ≤ distRank e b

/-- "more recent first" — descending creation time. -/
def recencyLE (a b : Fragment) : Prop :=
  b.CreatedAt ≤ a.CreatedAt

instance (e : List Int) : DecidableRel (distLE e) :=
  fun a b => inferInstanceAs (Decidable (distRank e a ≤ distRank e b))

instance (e : List Int) : IsTotal Fragment (distLE e) :=
  ⟨fun _ _ => le_total _ _⟩

instance (e : List Int) : IsTrans Fragment (distLE e) :=
  ⟨fun _ _ _ hab hbc => le_trans hab hbc⟩

instance : DecidableRel recencyLE :=
  fun a b => inferInstanceAs (Decidable (b.CreatedAt ≤ a.CreatedAt))

instance : IsTotal Fragment recencyLE :=
  ⟨fun _ _ => Nat.le_total _ _⟩

instance : IsTrans Fragment recencyLE :=
  ⟨fun _ _ _ hab hbc => Nat.le_trans hbc hab⟩

/-- Look a key up in a fragment's metadata. -/
def metaLookup (key : String) (md : List (String × MetaValue)) : Option MetaValue :=
  (md.find? (fun kv => kv.1 == key)).map (fun kv => kv.2)

/-- Modelled from the spec: evaluate one metadata condition against a
fragment (operators equals / not-equals / contains / in; an absent key
matches no operator, as SQL three-valued comparisons on NULL). -/
def evalCondition (c : MetadataCondition) (g : Fragment) : Bool :=
  match metaLookup c.Key g.Metadata with
  | none => false
  | some v =>
    if c.Operator == MetadataOpEquals then v == c.Value
    else if c.Operator == MetadataOpNotEquals then v != c.Value
    else if c.Operator == MetadataOpContains then
      match v, c.Value with
      | .arr vs, .scalar s => vs.contains s
      | _, _ => false
    else if c.Operator == MetadataOpIn then
      match v, c.Value with
      | .scalar s, .arr vs => vs.contains s
      | _, _ => false
    else false

/-- Modelled from the spec: the logical AND of all set exact filters of a
`FragmentFilter`. -/
def matchesFilter (f : FragmentFilter) (g : Fragment) : Bool :=
  (match f.ActorID with | none => true | some a => g.ActorID == a) &&
  (match f.SessionID with | none => true | some sid => g.SessionID == sid) &&
  f.Metadata.all (fun c => evalCondition c g) &&
  (match f.StartTime with | none => true | some t => decide (t ≤ g.CreatedAt)) &&
  (match f.EndTime with | none => true | some t => decide (g.CreatedAt ≤ t))

/-- Modelled from the spec: `Query` over a partition's fragment list —
filter by the AND of the exact filters, rank by vector distance when the
filter has an embedding and by recency otherwise, truncate to `Limit`. -/
def queryFrags (frags : List Fragment) (f : FragmentFilter) : List Fragment :=
  let matched := frags.filter (matchesFilter f)
  let sorted :=
    match f.Embedding with
    | some e => matched.insertionSort (distLE e)
    | none => matched.insertionSort recencyLE
  sorted.take f.Limit

/-- Modelled from the spec: `ValidationError` — a fragment referencing a
non-existent actor or session is rejected. -/
inductive ValidationError
  | actorNotFound
  | sessionNotFound
deriving DecidableEq, Repr

/-- One `stores.FragmentStore` instance's observable state: the actor and
session tables it validates against, its single fragment partition, and its
cache (`cache.Cache` keyed by the filter fingerprint — the filter value
itself, since `FragmentFilter` has decidable equality). -/
structure StoreState where
  actors : List Actor
  sessions : List Session
  frags : List Fragment
  cache : List (FragmentFilter × List Fragment)
deriving DecidableEq, Repr

/-- Modelled from the spec: `Upsert(actor)` — idempotent create-or-update
keyed by id. -/
def upsertActor (a : Actor) (s : StoreState) : StoreState :=
  if s.actors.any (fun b => b.ID == a.ID) then
    { s with actors := s.actors.map (fun b => if b.ID == a.ID then a else b) }
  else
    { s with actors := s.actors ++ [a] }

/-- Modelled from the spec: `Upsert(session)`. -/
def upsertSession (ses : Session) (s : StoreState) : StoreState :=
  if s.sessions.any (fun b => b.ID == ses.ID) then
    { s with sessions := s.sessions.map (fun b => if b.ID == ses.ID then ses else b) }
  else
    { s with sessions := s.sessions ++ [ses] }

/-- Modelled from the spec: `StoreFragment` — validate that the referenced
actor and session exist (rejecting with a `ValidationError` and leaving the
state unchanged otherwise), assign the server timestamp when absent, append
the fragment, and invalidate every cache entry whose filter scope could
include the new fragment (all entries for the affected session, including
session-unscoped filters). -/
def storeFragment (now : Nat) (g : Fragment) (s : StoreState) :
    Except ValidationError Fragment × StoreState :=
  if !s.actors.any (fun a => a.ID == g.ActorID) then
    (.error .actorNotFound, s)
  else if !s.sessions.any (fun ses => ses.ID == g.SessionID) then
    (.error .sessionNotFound, s)
  else
    let g' := { g with CreatedAt := if g.CreatedAt = 0 then now else g.CreatedAt }
    (.ok g',
      { s with
        frags := s.frags ++ [g'],
        cache := s.cache.filter (fun p =>
          !(p.1.SessionID == none || p.1.SessionID == some g.SessionID)) })

/-- `Query` against one store instance (uncached path). -/
def queryStore (s : StoreState) (f : FragmentFilter) : List Fragment :=
  queryFrags s.frags f

/-- Modelled from the spec: the read-through cache in front of `Query` —
look the filter fingerprint up; on a miss, delegate to storage and populate
the cache. -/
def cachedQuery (f : FragmentFilter) (s : StoreState) :
    List Fragment × StoreState :=
  match s.cache.find? (fun p => p.1 == f) with
  | some p => (p.2, s)
  | none =>
    let r := queryStore s f
    (r, { s with cache := (f, r) :: s.cache })

/-- Modelled from the spec: lookup of a stored fragment by its id ("Query
by id"). -/
def getFragment (fid : Nova.ID) (s : StoreState) : Option Fragment :=
  s.frags.find? (fun g => g.ID == fid)

/-- Every cache entry holds exactly the uncached query result for its
filter over the current fragment partition. -/
def CacheConsistent (s : StoreState) : Prop :=
  ∀ p ∈ s.cache, p.2 = queryStore s p.1

/-! ## Partition binding (`FragmentStore.fragmentTable`, C10) -/

/-- The database's fragment side: one fragment list per partition. -/
abbrev DB := FragmentTable → List Fragment

/-- `stores.FragmentStore`, restricted to its partition binding: the
`fragmentTable` field is set at construction and never changes. -/
structure FragmentStore where
  fragmentTable : FragmentTable
deriving DecidableEq, Repr

/-- `stores.NewFragmentStore(ctx, database, table)` binds the instance to
one fragment table. -/
def NewFragmentStore (t : FragmentTable) : FragmentStore := ⟨t⟩

/-- Modelled from the spec: the write path of a `FragmentStore` instance
touches only its bound partition. -/
def FragmentStore.storeFragDB (fs : FragmentStore) (g : Fragment) (db : DB) : DB :=
  fun t => if t = fs.fragmentTable then db t ++ [g] else db t

/-- Modelled from the spec: fragment upsert through a bound instance. -/
def FragmentStore.upsertFragDB (fs : FragmentStore) (g : Fragment) (db : DB) : DB :=
  fun t =>
    if t = fs.fragmentTable then
      if (db t).any (fun h => h.ID == g.ID) then
        (db t).map (fun h => if h.ID == g.ID then g else h)
      else db t ++ [g]
    else db t

/-- Modelled from the spec: the read path of a `FragmentStore` instance
reads only its bound partition. -/
def FragmentStore.queryDB (fs : FragmentStore) (f : FragmentFilter) (db : DB) :
    List Fragment :=
  queryFrags (db fs.fragmentTable) f

/-! ## Turn pipeline (`state.State`, Engine `Process`/`PostProcess`) -/

/-- `state.State`, the turn-scoped context.  `data` is an association list;
`lookupData` returns the first (most recently written) binding, and writes
prepend, so a later write shadows an earlier one. -/
structure State where
  actorID : Nova.ID
  sessionID : Nova.ID
  input : String
  recentInteractions : List Fragment
  data : List (String × String)
deriving DecidableEq, Repr

/-- Read a key from the shared state data. -/
def lookupData (k : String) (st : State) : Option String :=
  (st.data.find? (fun kv => kv.1 == k)).map (fun kv => kv.2)

/-- Modelled from the spec: a manager's run-time `Process`/`Context` hook —
it may transform the state or fail, aborting the turn. -/
structure ManagerHook where
  mid : ManagerID
  run : State → Except String State

/-- Modelled from the spec: run the manager hooks in resolved order,
fail-fast.  Returns the ids of the managers whose hooks executed and the
final outcome. -/
def runPipeline : List ManagerHook → State →
    List ManagerID × Except String State
  | [], st => ([], .ok st)
  | h :: hs, st =>
    match h.run st with
    | .error e => ([h.mid], .error e)
    | .ok st' =>
      let r := runPipeline hs st'
      (h.mid :: r.1, r.2)

/-- Modelled from the spec: one turn up to fragment storage — run the
pipeline; only when every hook succeeds is the turn's fragment stored
(fail-fast policy: an aborted turn stores nothing). -/
def runTurn (hooks : List ManagerHook) (st : State) (resp : Fragment)
    (now : Nat) (store : StoreState) :
    StoreState × List ManagerID × Except String State :=
  let r := runPipeline hooks st
  match r.2 with
  | .error e => (store, r.1, .error e)
  | .ok st' => ((storeFragment now resp store).2, r.1, .ok st')

/-- Apply one manager's key/value contributions to the shared data
(each write prepends, so within one list later writes shadow earlier
ones). -/
def applyWrites (ws : List (String × String)) (d : List (String × String)) :
    List (String × String) :=
  ws.foldl (fun acc kv => kv :: acc) d

/-- Modelled from the spec: the `Context` phase — every manager, in
resolved order, writes its key/value contributions into `State.data`. -/
def runContext (ms : List (ManagerID × List (String × String))) (st : State) :
    State :=
  { st with data := ms.foldl (fun d m => applyWrites m.2 d) st.data }

/-- Modelled from the spec: a manager's `PostProcess` hook — it either
contributes fragments to persist or fails. -/
structure PostProcessHook where
  mid : ManagerID
  run : State → Except String (List Fragment)

/-- One `PostProcess` step: a failing hook's error is collected (logged and
surfaced) without undoing any stored fragment; a succeeding hook's
fragments are stored. -/
def ppStep (now : Nat) (st : State) (acc : StoreState × List String)
    (h : PostProcessHook) : StoreState × List String :=
  match h.run st with
  | .error e => (acc.1, acc.2 ++ [e])
  | .ok fs => (fs.foldl (fun sacc g => (storeFragment now g sacc).2) acc.1, acc.2)

/-- Modelled from the spec: the Engine `PostProcess` phase — store the
response fragment, then run every manager's `PostProcess` hook, collecting
(not propagating) hook errors. -/
def enginePostProcess (hooks : List PostProcessHook) (resp : Fragment)
    (now : Nat) (st : State) (store : StoreState) : StoreState × List String :=
  hooks.foldl (ppStep now st) ((storeFragment now resp store).2, [])

/-! ## Query lemmas (C4) -/

/-- `matchesFilter` is the logical AND of all set exact filters. -/
theorem matchesFilter_iff (f : FragmentFilter) (g : Fragment) :
    matchesFilter f g = true ↔
      (∀ a, f.ActorID = some a → g.ActorID = a) ∧
      (∀ sid, f.SessionID = some sid → g.SessionID = sid) ∧
      (∀ c ∈ f.Metadata, evalCondition c g = true) ∧
      (∀ t, f.StartTime = some t → t ≤ g.CreatedAt) ∧
      (∀ t, f.EndTime = some t → g.CreatedAt ≤ t) := by
  unfold matchesFilter
  simp only [Bool.and_eq_true, List.all_eq_true]
  cases f.ActorID <;> cases f.SessionID <;> cases f.StartTime <;> cases f.EndTime <;>
    simp <;> tauto

/-- Sorting a filtered list and truncating: membership, length, permutation
with no truncation, sortedness. -/
theorem sortedTake_spec (R : Fragment → Fragment → Prop) [DecidableRel R]
    [IsTotal Fragment R] [IsTrans Fragment R] (matched : List Fragment) (n : Nat) :
    (∀ g ∈ (matched.insertionSort R).take n, g ∈ matched) ∧
    ((matched.insertionSort R).take n).length = min n matched.length ∧
    (matched.length ≤ n → List.Perm ((matched.insertionSort R).take n) matched) ∧
    List.Sorted R ((matched.insertionSort R).take n) := by
  have hperm := List.perm_insertionSort R matched
  have hsorted := List.sorted_insertionSort R matched
  refine ⟨?_, ?_, ?_, ?_⟩
  · intro g hg
    exact hperm.mem_iff.mp (List.mem_of_mem_take hg)
  · rw [List.length_take, hperm.length_eq]
  · intro hle
    rw [List.take_of_length_le (by rw [hperm.length_eq]; exact hle)]
    exact hperm
  · exact List.Pairwise.sublist (List.take_sublist _ _) hsorted

/-- C4: `Query` returns exactly the fragments of the partition satisfying
the logical AND of all set exact filters (actor, session, metadata
conditions, time range): every result is a matching stored fragment, the
result size is `Limit` capped by the number of matches, and without
truncation the result is exactly the matching set; with an embedding set
the results are sorted by vector distance ascending, otherwise most recent
first; in both cases truncated to `Limit`. -/
theorem query_filters_ranks_truncates (frags : List Fragment) (f : FragmentFilter) :
    (∀ g ∈ queryFrags frags f, g ∈ frags ∧ matchesFilter f g = true) ∧
    (queryFrags frags f).length =
      min f.Limit (frags.filter (matchesFilter f)).length ∧
    ((frags.filter (matchesFilter f)).length ≤ f.Limit →
      List.Perm (queryFrags frags f) (frags.filter (matchesFilter f))) ∧
    (∀ e, f.Embedding = some e → List.Sorted (distLE e) (queryFrags frags f)) ∧
    (f.Embedding = none → List.Sorted recencyLE (queryFrags frags f)) ∧
    (∀ g, matchesFilter f g = true ↔
      (∀ a, f.ActorID = some a → g.ActorID = a) ∧
      (∀ sid, f.SessionID = some sid → g.SessionID = sid) ∧
      (∀ c ∈ f.Metadata, evalCondition c g = true) ∧
      (∀ t, f.StartTime = some t → t ≤ g.CreatedAt) ∧
      (∀ t, f.EndTime = some t → g.CreatedAt ≤ t)) := by
  cases hemb : f.Embedding with
  | none =>
    have hq : queryFrags frags f =
        ((frags.filter (matchesFilter f)).insertionSort recencyLE).take f.Limit := by
      simp [queryFrags, hemb]
    obtain ⟨hmem, hlen, hcomp, hsort⟩ :=
      sortedTake_spec recencyLE (frags.filter (matchesFilter f)) f.Limit
    refine ⟨?_, ?_, ?_, ?_, ?_, fun g => matchesFilter_iff f g⟩
    · intro g hg
      rw [hq] at hg
      exact List.mem_filter.mp (hmem g hg)
    · rw [hq]; exact hlen
    · intro hle; rw [hq]; exact hcomp hle
    · intro e he; exact Option.noConfusion he
    · intro _; rw [hq]; exact hsort
  | some e =>
    have hq : queryFrags frags f =
        ((frags.filter (matchesFilter f)).insertionSort (distLE e)).take f.Limit := by
      simp [queryFrags, hemb]
    obtain ⟨hmem, hlen, hcomp, hsort⟩ :=
      sortedTake_spec (distLE e) (frags.filter (matchesFilter f)) f.Limit
    refine ⟨?_, ?_, ?_, ?_, ?_, fun g => matchesFilter_iff f g⟩
    · intro g hg
      rw [hq] at hg
      exact List.mem_filter.mp (hmem g hg)
    · rw [hq]; exact hlen
    · intro hle; rw [hq]; exact hcomp hle
    · intro e' he'
      obtain rfl : e = e' := by injection he'
      rw [hq]; exact hsort
    · intro hne; exact Option.noConfusion hne

/-- C4 witness: a concrete two-fragment store queried by session id with
recency ordering. -/
theorem query_filters_ranks_truncates_witness :
    (∀ g ∈ queryFrags
        [⟨"f1", "u", "s", "hi", none, [], 5⟩, ⟨"f2", "u", "t", "yo", none, [], 9⟩]
        ⟨none, some "s", [], none, none, none, 10⟩,
      g ∈ [⟨"f1", "u", "s", "hi", none, [], 5⟩, ⟨"f2", "u", "t", "yo", none, [], 9⟩] ∧
        matchesFilter ⟨none, some "s", [], none, none, none, 10⟩ g = true) ∧
    (queryFrags
        [⟨"f1", "u", "s", "hi", none, [], 5⟩, ⟨"f2", "u", "t", "yo", none, [], 9⟩]
        ⟨none, some "s", [], none, none, none, 10⟩).length =
      min 10 ([⟨"f1", "u", "s", "hi", none, [], 5⟩,
          ⟨"f2", "u", "t", "yo", none, [], 9⟩].filter
        (matchesFilter ⟨none, some "s", [], none, none, none, 10⟩)).length ∧
    (([⟨"f1", "u", "s", "hi", none, [], 5⟩,
          ⟨"f2", "u", "t", "yo", none, [], 9⟩].filter
        (matchesFilter ⟨none, some "s", [], none, none, none, 10⟩)).length ≤ 10 →
      List.Perm
        (queryFrags
          [⟨"f1", "u", "s", "hi", none, [], 5⟩, ⟨"f2", "u", "t", "yo", none, [], 9⟩]
          ⟨none, some "s", [], none, none, none, 10⟩)
        ([⟨"f1", "u", "s", "hi", none, [], 5⟩,
            ⟨"f2", "u", "t", "yo", none, [], 9⟩].filter
          (matchesFilter ⟨none, some "s", [], none, none, none, 10⟩))) ∧
    (∀ e, (⟨none, some "s", [], none, none, none, 10⟩ : FragmentFilter).Embedding = some e →
      List.Sorted (distLE e)
        (queryFrags
          [⟨"f1", "u", "s", "hi", none, [], 5⟩, ⟨"f2", "u", "t", "yo", none, [], 9⟩]
          ⟨none, some "s", [], none, none, none, 10⟩)) ∧
    ((⟨none, some "s", [], none, none, none, 10⟩ : FragmentFilter).Embedding = none →
      List.Sorted recencyLE
        (queryFrags
          [⟨"f1", "u", "s", "hi", none, [], 5⟩, ⟨"f2", "u", "t", "yo", none, [], 9⟩]
          ⟨none, some "s", [], none, none, none, 10⟩)) ∧
    (∀ g, matchesFilter ⟨none, some "s", [], none, none, none, 10⟩ g = true ↔
      (∀ a, (⟨none, some "s", [], none, none, none, 10⟩ : FragmentFilter).ActorID = some a →
        g.ActorID = a) ∧
      (∀ sid, (⟨none, some "s", [], none, none, none, 10⟩ : FragmentFilter).SessionID = some sid →
        g.SessionID = sid) ∧
      (∀ c ∈ (⟨none, some "s", [], none, none, none, 10⟩ : FragmentFilter).Metadata,
        evalCondition c g = true) ∧
      (∀ t, (⟨none, some "s", [], none, none, none, 10⟩ : FragmentFilter).StartTime = some t →
        t ≤ g.CreatedAt) ∧
      (∀ t, (⟨none, some "s", [], none, none, none, 10⟩ : FragmentFilter).EndTime = some t →
        g.CreatedAt ≤ t)) :=
  query_filters_ranks_truncates
    [⟨"f1", "u", "s", "hi", none, [], 5⟩, ⟨"f2", "u", "t", "yo", none, [], 9⟩]
    ⟨none, some "s", [], none, none, none, 10⟩

/-! ## StoreFragment lemmas (C5, C6, C7) -/

theorem storeFragment_noActor {now : Nat} {g : Fragment} {s : StoreState}
    (h : s.actors.any (fun a => a.ID == g.ActorID) = false) :
    storeFragment now g s = (.error .actorNotFound, s) := by
  simp [storeFragment, h]

theorem storeFragment_noSession {now : Nat} {g : Fragment} {s : StoreState}
    (ha : s.actors.any (fun a => a.ID == g.ActorID) = true)
    (hs : s.sessions.any (fun ses => ses.ID == g.SessionID) = false) :
    storeFragment now g s = (.error .sessionNotFound, s) := by
  simp [storeFragment, ha, hs]

theorem storeFragment_success {now : Nat} {g : Fragment} {s : StoreState}
    (ha : s.actors.any (fun a => a.ID == g.ActorID) = true)
    (hs : s.sessions.any (fun ses => ses.ID == g.SessionID) = true) :
    storeFragment now g s =
      (.ok { g with CreatedAt := if g.CreatedAt = 0 then now else g.CreatedAt },
        { s with
          frags := s.frags ++
            [{ g with CreatedAt := if g.CreatedAt = 0 then now else g.CreatedAt }],
          cache := s.cache.filter (fun p =>
            !(p.1.SessionID == none || p.1.SessionID == some g.SessionID)) }) := by
  simp [storeFragment, ha, hs]

/-- Inversion: a successful `storeFragment` pins down the returned fragment
and the new state. -/
theorem storeFragment_ok_inv {now : Nat} {g g' : Fragment} {s s' : StoreState}
    (h : storeFragment now g s = (.ok g', s')) :
    g' = { g with CreatedAt := if g.CreatedAt = 0 then now else g.CreatedAt } ∧
    s' = { s with
      frags := s.frags ++ [g'],
      cache := s.cache.filter (fun p =>
        !(p.1.SessionID == none || p.1.SessionID == some g.SessionID)) } := by
  cases ha : s.actors.any (fun a => a.ID == g.ActorID) with
  | false => rw [storeFragment_noActor ha] at h; simp at h
  | true =>
    cases hs : s.sessions.any (fun ses => ses.ID == g.SessionID) with
    | false => rw [storeFragment_noSession ha hs] at h; simp at h
    | true =>
      rw [storeFragment_success ha hs] at h
      injection h with h1 h2
      injection h1 with h1
      refine ⟨h1.symm, ?_⟩
      rw [← h1]
      exact h2.symm

/-- Appending a fragment that does not match the filter leaves the query
result unchanged. -/
theorem queryFrags_append_nonmatching {f : FragmentFilter} {g : Fragment}
    (frags : List Fragment) (h : matchesFilter f g = false) :
    queryFrags (frags ++ [g]) f = queryFrags frags f := by
  unfold queryFrags
  rw [List.filter_append]
  simp [List.filter_cons, h]

theorem cachedQuery_eq_direct {s : StoreState} (hcc : CacheConsistent s)
    (f : FragmentFilter) :
    (cachedQuery f s).1 = queryStore s f := by
  unfold cachedQuery
  cases hfind : s.cache.find? (fun p => p.1 == f) with
  | none => rfl
  | some p =>
    have hp : p ∈ s.cache := List.mem_of_find?_eq_some hfind
    have hpf : p.1 = f := by
      have := List.find?_some hfind
      simpa using this
    simpa [hpf] using hcc p hp

theorem cachedQuery_preserves {s : StoreState} (hcc : CacheConsistent s)
    (f : FragmentFilter) :
    CacheConsistent (cachedQuery f s).2 := by
  unfold cachedQuery
  cases hfind : s.cache.find? (fun p => p.1 == f) with
  | none =>
    intro p hp
    rcases List.mem_cons.mp hp with rfl | hp
    · rfl
    · exact hcc p hp
  | some q => exact hcc

theorem storeFragment_preserves_consistent {s : StoreState}
    (hcc : CacheConsistent s) {now : Nat} {g g' : Fragment} {s' : StoreState}
    (h : storeFragment now g s = (.ok g', s')) :
    CacheConsistent s' := by
  obtain ⟨hg', hs'⟩ := storeFragment_ok_inv h
  intro p hp
  rw [hs'] at hp
  simp only at hp
  have hp' := List.mem_filter.mp hp
  obtain ⟨hpmem, hpkeep⟩ := hp'
  -- the kept filter is scoped to a session other than the fragment's
  have hsid : ∃ sid, p.1.SessionID = some sid ∧ sid ≠ g.SessionID := by
    simp only [Bool.not_eq_true', Bool.or_eq_false_iff] at hpkeep
    obtain ⟨h1, h2⟩ := hpkeep
    cases hps : p.1.SessionID with
    | none => rw [hps] at h1; simp at h1
    | some sid =>
      refine ⟨sid, rfl, ?_⟩
      rw [hps] at h2
      intro hc
      rw [hc] at h2
      simp at h2
  obtain ⟨sid, hps, hne⟩ := hsid
  -- the new fragment cannot match this filter
  have hnomatch : matchesFilter p.1 g' = false := by
    cases hmf : matchesFilter p.1 g' with
    | false => rfl
    | true =>
      have hgs : g'.SessionID = sid := ((matchesFilter_iff p.1 g').mp hmf).2.1 sid hps
      rw [hg'] at hgs
      exact absurd hgs.symm hne
  have hq : queryStore s' p.1 = queryStore s p.1 := by
    show queryFrags s'.frags p.1 = queryFrags s.frags p.1
    rw [hs']
    exact queryFrags_append_nonmatching s.frags hnomatch
  rw [hq]
  exact hcc p hpmem

/-- C5: a cache hit returns exactly the uncached query result, querying
preserves cache consistency, and after a successful `StoreFragment` the
cache is again consistent so the next query for any filter — in particular
a previously cached one — equals the direct query over the updated
partition, which contains the new fragment (no stale read). -/
theorem cache_hit_never_stale (s : StoreState) (hcc : CacheConsistent s)
    (f : FragmentFilter) :
    (cachedQuery f s).1 = queryStore s f ∧
    CacheConsistent (cachedQuery f s).2 ∧
    (∀ now g g' s', storeFragment now g s = (.ok g', s') →
      CacheConsistent s' ∧
      (cachedQuery f s').1 = queryStore s' f ∧
      g' ∈ s'.frags) := by
  refine ⟨cachedQuery_eq_direct hcc f, cachedQuery_preserves hcc f, ?_⟩
  intro now g g' s' h
  have hcc' := storeFragment_preserves_consistent hcc h
  obtain ⟨-, hs'⟩ := storeFragment_ok_inv h
  refine ⟨hcc', cachedQuery_eq_direct hcc' f, ?_⟩
  rw [hs']
  simp

/-- C5 witness: an empty-cached store containing one actor and session. -/
theorem cache_hit_never_stale_witness :
    (cachedQuery ⟨none, some "s", [], none, none, none, 10⟩
        ⟨[⟨"u", "User", false⟩], [⟨"s"⟩], [], []⟩).1 =
      queryStore ⟨[⟨"u", "User", false⟩], [⟨"s"⟩], [], []⟩
        ⟨none, some "s", [], none, none, none, 10⟩ ∧
    CacheConsistent (cachedQuery ⟨none, some "s", [], none, none, none, 10⟩
        ⟨[⟨"u", "User", false⟩], [⟨"s"⟩], [], []⟩).2 ∧
    (∀ now g g' s',
      storeFragment now g ⟨[⟨"u", "User", false⟩], [⟨"s"⟩], [], []⟩ = (.ok g', s') →
      CacheConsistent s' ∧
      (cachedQuery ⟨none, some "s", [], none, none, none, 10⟩ s').1 =
        queryStore s' ⟨none, some "s", [], none, none, none, 10⟩ ∧
      g' ∈ s'.frags) :=
  cache_hit_never_stale ⟨[⟨"u", "User", false⟩], [⟨"s"⟩], [], []⟩
    (by intro p hp; simp at hp) ⟨none, some "s", [], none, none, none, 10⟩

/-- C6: `StoreFragment` rejects a fragment whose referenced actor or
session does not exist with a `ValidationError`, leaving the store state
verbatim unchanged (no partial write); when both references exist it
persists the fragment, returning it with a server-assigned timestamp
exactly when the fragment carried none, all other fields unchanged. -/
theorem storeFragment_validates (now : Nat) (g : Fragment) (s : StoreState) :
    ((∀ a ∈ s.actors, a.ID ≠ g.ActorID) →
      storeFragment now g s = (.error .actorNotFound, s)) ∧
    ((∃ a ∈ s.actors, a.ID = g.ActorID) → (∀ ses ∈ s.sessions, ses.ID ≠ g.SessionID) →
      storeFragment now g s = (.error .sessionNotFound, s)) ∧
    ((∃ a ∈ s.actors, a.ID = g.ActorID) → (∃ ses ∈ s.sessions, ses.ID = g.SessionID) →
      ∃ g', (storeFragment now g s).1 = .ok g' ∧
        (storeFragment now g s).2.frags = s.frags ++ [g'] ∧
        g'.ID = g.ID ∧ g'.ActorID = g.ActorID ∧ g'.SessionID = g.SessionID ∧
        g'.Content = g.Content ∧ g'.Embedding = g.Embedding ∧
        g'.Metadata = g.Metadata ∧
        g'.CreatedAt = (if g.CreatedAt = 0 then now else g.CreatedAt)) := by
  refine ⟨?_, ?_, ?_⟩
  · intro hnoa
    apply storeFragment_noActor
    simp only [List.any_eq_false]
    intro a ha
    simpa using hnoa a ha
  · intro ⟨a, ha, haid⟩ hnos
    apply storeFragment_noSession
    · simp only [List.any_eq_true]
      exact ⟨a, ha, by simpa using haid⟩
    · simp only [List.any_eq_false]
      intro ses hses
      simpa using hnos ses hses
  · intro ⟨a, ha, haid⟩ ⟨ses, hses, hsid⟩
    have hga : s.actors.any (fun a => a.ID == g.ActorID) = true := by
      simp only [List.any_eq_true]
      exact ⟨a, ha, by simpa using haid⟩
    have hgs : s.sessions.any (fun b => b.ID == g.SessionID) = true := by
      simp only [List.any_eq_true]
      exact ⟨ses, hses, by simpa using hsid⟩
    refine ⟨{ g with CreatedAt := if g.CreatedAt = 0 then now else g.CreatedAt },
      ?_, ?_, rfl, rfl, rfl, rfl, rfl, rfl, rfl⟩
    · rw [storeFragment_success hga hgs]
    · rw [storeFragment_success hga hgs]

/-- C6 witness: a store with one actor and one session, a fragment with a
dangling actor reference (rejected) and a valid one (persisted). -/
theorem storeFragment_validates_witness :
    ((∀ a ∈ ([⟨"u", "User", false⟩] : List Actor), a.ID ≠ "ghost") →
      storeFragment 7 ⟨"f1", "ghost", "s", "hi", none, [], 0⟩
          ⟨[⟨"u", "User", false⟩], [⟨"s"⟩], [], []⟩ =
        (.error .actorNotFound, ⟨[⟨"u", "User", false⟩], [⟨"s"⟩], [], []⟩)) ∧
    ((∀ a ∈ ([⟨"u", "User", false⟩] : List Actor), a.ID ≠ "u") →
      storeFragment 7 ⟨"f2", "u", "s", "hi", none, [], 0⟩
          ⟨[⟨"u", "User", false⟩], [⟨"s"⟩], [], []⟩ =
        (.error .actorNotFound, ⟨[⟨"u", "User", false⟩], [⟨"s"⟩], [], []⟩)) ∧
    ((∃ a ∈ ([⟨"u", "User", false⟩] : List Actor), a.ID = "u") →
      (∃ ses ∈ ([⟨"s"⟩] : List Session), ses.ID = "s") →
      ∃ g', (storeFragment 7 ⟨"f2", "u", "s", "hi", none, [], 0⟩
          ⟨[⟨"u", "User", false⟩], [⟨"s"⟩], [], []⟩).1 = .ok g' ∧
        (storeFragment 7 ⟨"f2", "u", "s", "hi", none, [], 0⟩
          ⟨[⟨"u", "User", false⟩], [⟨"s"⟩], [], []⟩).2.frags = [] ++ [g'] ∧
        g'.ID = "f2" ∧ g'.ActorID = "u" ∧ g'.SessionID = "s" ∧
        g'.Content = "hi" ∧ g'.Embedding = none ∧ g'.Metadata = [] ∧
        g'.CreatedAt = (if 0 = 0 then 7 else 0)) :=
  ⟨(storeFragment_validates 7 ⟨"f1", "ghost", "s", "hi", none, [], 0⟩
      ⟨[⟨"u", "User", false⟩], [⟨"s"⟩], [], []⟩).1,
   (storeFragment_validates 7 ⟨"f2", "u", "s", "hi", none, [], 0⟩
      ⟨[⟨"u", "User", false⟩], [⟨"s"⟩], [], []⟩).1,
   (storeFragment_validates 7 ⟨"f2", "u", "s", "hi", none, [], 0⟩
      ⟨[⟨"u", "User", false⟩], [⟨"s"⟩], [], []⟩).2.2⟩

/-- Once found, a fragment stays found (and unchanged) under any further
append to the partition: `find?` returns the first match. -/
theorem getFragment_extend {fid : Nova.ID} {s : StoreState} {x : Fragment}
    (h : getFragment fid s = some x) (l : List Fragment) :
    (s.frags ++ l).find? (fun g => g.ID == fid) = some x := by
  rw [List.find?_append]
  unfold getFragment at h
  rw [h]
  rfl

/-- C7: storing a valid fragment with a fresh id and then querying by that
id returns it with content, embedding and metadata unchanged, and no later
`StoreFragment` call ever mutates or removes it (append-only store). -/
theorem storeFragment_roundtrip_immutable (now : Nat) (g g' : Fragment)
    (s s' : StoreState)
    (hfresh : ∀ h ∈ s.frags, h.ID ≠ g.ID)
    (hok : storeFragment now g s = (.ok g', s')) :
    getFragment g.ID s' = some g' ∧
    g'.Content = g.Content ∧ g'.Embedding = g.Embedding ∧
    g'.Metadata = g.Metadata ∧
    (∀ now₂ h res s'', storeFragment now₂ h s' = (res, s'') →
      getFragment g.ID s'' = some g') := by
  obtain ⟨hg', hs'⟩ := storeFragment_ok_inv hok
  have hfound : getFragment g.ID s' = some g' := by
    unfold getFragment
    rw [hs']
    simp only
    rw [List.find?_append]
    have hnone : s.frags.find? (fun h => h.ID == g.ID) = none := by
      rw [List.find?_eq_none]
      intro h hh
      simpa using hfresh h hh
    rw [hnone]
    simp [hg']
  refine ⟨hfound, by rw [hg'], by rw [hg'], by rw [hg'], ?_⟩
  intro now₂ h res s'' hstore
  cases hres : res with
  | error err =>
    rw [hres] at hstore
    cases ha : s'.actors.any (fun a => a.ID == h.ActorID) with
    | false =>
      rw [storeFragment_noActor ha] at hstore
      injection hstore with _ h2
      rw [← h2]
      exact hfound
    | true =>
      cases hsx : s'.sessions.any (fun ses => ses.ID == h.SessionID) with
      | false =>
        rw [storeFragment_noSession ha hsx] at hstore
        injection hstore with _ h2
        rw [← h2]
        exact hfound
      | true =>
        rw [storeFragment_success ha hsx] at hstore
        injection hstore with h1 _
        simp at h1
  | ok h' =>
    rw [hres] at hstore
    obtain ⟨-, hs''⟩ := storeFragment_ok_inv hstore
    unfold getFragment
    rw [hs'']
    simp only
    exact getFragment_extend hfound _

/-- C7 witness: store a fragment into an empty partition, read it back by
id, store another fragment, and read the first back unchanged. -/
theorem storeFragment_roundtrip_immutable_witness :
    getFragment "f1" (storeFragment 7 ⟨"f1", "u", "s", "hi", some [1, 2], [("k", .scalar (.s "v"))], 0⟩
      ⟨[⟨"u", "User", false⟩], [⟨"s"⟩], [], []⟩).2 =
      some ⟨"f1", "u", "s", "hi", some [1, 2], [("k", .scalar (.s "v"))], 7⟩ ∧
    (⟨"f1", "u", "s", "hi", some [1, 2], [("k", .scalar (.s "v"))], 7⟩ : Fragment).Content = "hi" ∧
    (⟨"f1", "u", "s", "hi", some [1, 2], [("k", .scalar (.s "v"))], 7⟩ : Fragment).Embedding = some [1, 2] ∧
    (⟨"f1", "u", "s", "hi", some [1, 2], [("k", .scalar (.s "v"))], 7⟩ : Fragment).Metadata = [("k", .scalar (.s "v"))] ∧
    (∀ now₂ h res s'',
      storeFragment now₂ h (storeFragment 7
          ⟨"f1", "u", "s", "hi", some [1, 2], [("k", .scalar (.s "v"))], 0⟩
          ⟨[⟨"u", "User", false⟩], [⟨"s"⟩], [], []⟩).2 = (res, s'') →
      getFragment "f1" s'' =
        some ⟨"f1", "u", "s", "hi", some [1, 2], [("k", .scalar (.s "v"))], 7⟩) := by
  have := storeFragment_roundtrip_immutable 7
    ⟨"f1", "u", "s", "hi", some [1, 2], [("k", .scalar (.s "v"))], 0⟩
    ⟨"f1", "u", "s", "hi", some [1, 2], [("k", .scalar (.s "v"))], 7⟩
    ⟨[⟨"u", "User", false⟩], [⟨"s"⟩], [], []⟩
    (storeFragment 7 ⟨"f1", "u", "s", "hi", some [1, 2], [("k", .scalar (.s "v"))], 0⟩
      ⟨[⟨"u", "User", false⟩], [⟨"s"⟩], [], []⟩).2
    (by intro h hh; simp at hh)
    (by rfl)
  exact this

/-! ## Pipeline lemmas (C3, C8, C9) -/

theorem runPipeline_append (pre rest : List ManagerHook) (st : State) :
    ∀ (st₁ : State) (ids : List ManagerID),
    runPipeline pre st = (ids, .ok st₁) →
    runPipeline (pre ++ rest) st =
      (ids ++ (runPipeline rest st₁).1, (runPipeline rest st₁).2) := by
  induction pre generalizing st with
  | nil =>
    intro st₁ ids h
    simp [runPipeline] at h
    obtain ⟨h1, h2⟩ := h
    subst h1
    subst h2
    simp
  | cons h₀ hs ih =>
    intro st₁ ids h
    cases hrun : h₀.run st with
    | error e => simp [runPipeline, hrun] at h
    | ok st' =>
      simp only [runPipeline, hrun] at h
      obtain ⟨hids, h2⟩ := Prod.mk.injEq .. ▸ h
      have hrec : runPipeline hs st' = ((runPipeline hs st').1, .ok st₁) := by
        rw [← h2]
      have := ih st' st₁ (runPipeline hs st').1 hrec
      simp only [List.cons_append, runPipeline, hrun, ← hids, List.append_eq]
      rw [this]

/-- C3: when every manager before M succeeds and M's hook fails, the turn
is aborted fail-fast — the store is unchanged (no fragment is persisted for
the turn) and the executed trace is exactly the managers up to and
including M: no manager scheduled after M runs. -/
theorem processFailure_aborts_turn (pre post : List ManagerHook)
    (M : ManagerHook) (st st₁ : State) (ids : List ManagerID) (e : String)
    (hpre : runPipeline pre st = (ids, .ok st₁))
    (hM : M.run st₁ = .error e)
    (resp : Fragment) (now : Nat) (store : StoreState) :
    runTurn (pre ++ M :: post) st resp now store =
      (store, ids ++ [M.mid], .error e) := by
  have hrest : runPipeline (M :: post) st₁ = ([M.mid], .error e) := by
    simp [runPipeline, hM]
  have hall := runPipeline_append pre (M :: post) st st₁ ids hpre
  rw [hrest] at hall
  simp [runTurn, hall]

/-- C3 witness: a three-manager pipeline whose middle manager fails — only
the first two execute and the store is untouched. -/
theorem processFailure_aborts_turn_witness :
    runTurn
      [⟨"insight", fun s => .ok s⟩, ⟨"personality", fun _ => .error "boom"⟩,
        ⟨"other", fun s => .ok s⟩]
      ⟨"u", "s", "hello", [], []⟩ ⟨"f1", "agent", "s", "resp", none, [], 0⟩ 7
      ⟨[⟨"u", "User", false⟩], [⟨"s"⟩], [], []⟩ =
      (⟨[⟨"u", "User", false⟩], [⟨"s"⟩], [], []⟩, ["insight", "personality"],
        .error "boom") :=
  processFailure_aborts_turn
    [⟨"insight", fun s => .ok s⟩] [⟨"other", fun s => .ok s⟩]
    ⟨"personality", fun _ => .error "boom"⟩
    ⟨"u", "s", "hello", [], []⟩ ⟨"u", "s", "hello", [], []⟩ ["insight"] "boom"
    rfl rfl ⟨"f1", "agent", "s", "resp", none, [], 0⟩ 7
    ⟨[⟨"u", "User", false⟩], [⟨"s"⟩], [], []⟩

/-- The concatenation of every manager's `Context` writes, in resolved
order. -/
def allWrites : List (ManagerID × List (String × String)) →
    List (String × String)
  | [] => []
  | m :: ms => m.2 ++ allWrites ms

theorem allWrites_append (l₁ l₂ : List (ManagerID × List (String × String))) :
    allWrites (l₁ ++ l₂) = allWrites l₁ ++ allWrites l₂ := by
  induction l₁ with
  | nil => simp [allWrites]
  | cons m ms ih => simp [allWrites, ih]

theorem mem_allWrites {kv : String × String}
    {ms : List (ManagerID × List (String × String))} :
    kv ∈ allWrites ms ↔ ∃ m ∈ ms, kv ∈ m.2 := by
  induction ms with
  | nil => simp [allWrites]
  | cons m ms ih =>
    simp only [allWrites, List.mem_append, ih, List.mem_cons]
    constructor
    · rintro (h | ⟨w, hw, hkv⟩)
      · exact ⟨m, Or.inl rfl, h⟩
      · exact ⟨w, Or.inr hw, hkv⟩
    · rintro ⟨w, hw | hw, hkv⟩
      · exact Or.inl (hw ▸ hkv)
      · exact Or.inr ⟨w, hw, hkv⟩

theorem applyWrites_eq (ws d : List (String × String)) :
    applyWrites ws d = ws.reverse ++ d := by
  induction ws generalizing d with
  | nil => simp [applyWrites]
  | cons w ws ih =>
    show applyWrites ws (w :: d) = _
    rw [ih]
    simp

theorem runContext_data (ms : List (ManagerID × List (String × String)))
    (st : State) :
    (runContext ms st).data = (allWrites ms).reverse ++ st.data := by
  suffices h : ∀ d, ms.foldl (fun d m => applyWrites m.2 d) d =
      (allWrites ms).reverse ++ d by
    exact h st.data
  induction ms with
  | nil => intro d; simp [allWrites]
  | cons m ms ih =>
    intro d
    show ms.foldl _ (applyWrites m.2 d) = _
    rw [ih, applyWrites_eq, allWrites]
    simp

/-- C8: when two managers write the same `State.data` key during a turn,
the value observed after the pipeline is the one written by the manager
that runs later in the resolved order (last-writer-wins); managers running
after it that do not touch the key leave it intact. -/
theorem lastWriterWins (pre mids posts : List (ManagerID × List (String × String)))
    (m₁ m₂ : ManagerID × List (String × String)) (st : State) (k v₁ v₂ : String)
    (h₁ : (k, v₁) ∈ m₁.2)
    (h₂ : m₂.2.reverse.find? (fun kv => kv.1 == k) = some (k, v₂))
    (hpost : ∀ w ∈ posts, ∀ kv ∈ w.2, kv.1 ≠ k) :
    lookupData k (runContext (pre ++ m₁ :: mids ++ m₂ :: posts) st) = some v₂ := by
  have hdata : (runContext (pre ++ m₁ :: mids ++ m₂ :: posts) st).data =
      (allWrites posts).reverse ++
        (m₂.2.reverse ++
          ((allWrites mids).reverse ++ (m₁.2.reverse ++
            ((allWrites pre).reverse ++ st.data)))) := by
    have hsplit : pre ++ m₁ :: mids ++ m₂ :: posts =
        pre ++ ([m₁] ++ (mids ++ ([m₂] ++ posts))) := by simp
    rw [runContext_data, hsplit]
    simp [allWrites_append, allWrites, List.reverse_append, List.append_assoc]
  have hpostnone : ((allWrites posts).reverse).find? (fun kv => kv.1 == k) = none := by
    rw [List.find?_eq_none]
    intro kv hkv
    rw [List.mem_reverse] at hkv
    obtain ⟨w, hw, hkvw⟩ := mem_allWrites.mp hkv
    simpa using hpost w hw kv hkvw
  unfold lookupData
  rw [hdata, List.find?_append, hpostnone]
  simp only [Option.none_or]
  rw [List.find?_append, h₂]
  rfl

/-- C8 witness: two managers both write key `"k"`; the later one's value
`"v2"` is observed. -/
theorem lastWriterWins_witness :
    lookupData "k"
      (runContext
        [("insight", [("k", "v1")]), ("personality", [("k", "v2")]),
          ("other", [("x", "y")])]
        ⟨"u", "s", "hello", [], []⟩) = some "v2" :=
  lastWriterWins [] [] [("other", [("x", "y")])]
    ("insight", [("k", "v1")]) ("personality", [("k", "v2")])
    ⟨"u", "s", "hello", [], []⟩ "k" "v1" "v2"
    (by simp) (by rfl) (by intro w hw kv hkv; simp at hw; rw [hw] at hkv; simp at hkv; simp [hkv])

/-! ## PostProcess lemmas (C9) -/

/-- `storeFragment` never removes a stored fragment. -/
theorem storeFragment_frags_mono (now : Nat) (g : Fragment) (s : StoreState) :
    ∀ x ∈ s.frags, x ∈ (storeFragment now g s).2.frags := by
  intro x hx
  cases ha : s.actors.any (fun a => a.ID == g.ActorID) with
  | false => rw [storeFragment_noActor ha]; exact hx
  | true =>
    cases hs : s.sessions.any (fun ses => ses.ID == g.SessionID) with
    | false => rw [storeFragment_noSession ha hs]; exact hx
    | true =>
      rw [storeFragment_success ha hs]
      simp only
      exact List.mem_append_left _ hx

theorem foldStore_frags_mono (now : Nat) (fs : List Fragment) :
    ∀ (s : StoreState), ∀ x ∈ s.frags,
    x ∈ (fs.foldl (fun sacc g => (storeFragment now g sacc).2) s).frags := by
  induction fs with
  | nil => intro s x hx; exact hx
  | cons g gs ih =>
    intro s x hx
    exact ih _ x (storeFragment_frags_mono now g s x hx)

theorem ppFold_frags_mono (now : Nat) (st : State) (hooks : List PostProcessHook) :
    ∀ (acc : StoreState × List String), ∀ x ∈ acc.1.frags,
    x ∈ (hooks.foldl (ppStep now st) acc).1.frags := by
  induction hooks with
  | nil => intro acc x hx; exact hx
  | cons h hs ih =>
    intro acc x hx
    refine ih (ppStep now st acc h) x ?_
    unfold ppStep
    cases h.run st with
    | error e => exact hx
    | ok fs => exact foldStore_frags_mono now fs acc.1 x hx

theorem ppFold_errs_mono (now : Nat) (st : State) (hooks : List PostProcessHook) :
    ∀ (acc : StoreState × List String), ∀ e ∈ acc.2,
    e ∈ (hooks.foldl (ppStep now st) acc).2 := by
  induction hooks with
  | nil => intro acc e he; exact he
  | cons h hs ih =>
    intro acc e he
    refine ih (ppStep now st acc h) e ?_
    unfold ppStep
    cases h.run st with
    | error e' => exact List.mem_append_left _ he
    | ok fs => exact he

/-- C9: when some manager's `PostProcess` hook fails after the response was
delivered, every fragment already stored for the turn — the response
fragment included — remains stored (nothing is retracted), and the error is
surfaced to the caller (the collected error list is nonempty, a non-fatal
warning rather than a propagated failure). -/
theorem postProcessFailure_nonfatal (hooks : List PostProcessHook)
    (resp : Fragment) (now : Nat) (st : State) (store : StoreState)
    (h : PostProcessHook) (hmem : h ∈ hooks) (e : String)
    (herr : h.run st = .error e) :
    (∀ g ∈ (storeFragment now resp store).2.frags,
      g ∈ (enginePostProcess hooks resp now st store).1.frags) ∧
    (∀ g', (storeFragment now resp store).1 = .ok g' →
      g' ∈ (enginePostProcess hooks resp now st store).1.frags) ∧
    (enginePostProcess hooks resp now st store).2 ≠ [] := by
  refine ⟨?_, ?_, ?_⟩
  · intro g hg
    exact ppFold_frags_mono now st hooks _ g hg
  · intro g' hok
    refine ppFold_frags_mono now st hooks _ g' ?_
    cases hsf : storeFragment now resp store with
    | mk r s' =>
      rw [hsf] at hok
      simp only at hok
      subst hok
      obtain ⟨-, hs'⟩ := storeFragment_ok_inv hsf
      show g' ∈ s'.frags
      rw [hs']
      simp
  · obtain ⟨l₁, l₂, hsplit⟩ := List.append_of_mem hmem
    unfold enginePostProcess
    rw [hsplit, List.foldl_append]
    have hstep : ∀ acc : StoreState × List String,
        e ∈ (List.foldl (ppStep now st) acc (h :: l₂)).2 := by
      intro acc
      show e ∈ (List.foldl (ppStep now st) (ppStep now st acc h) l₂).2
      refine ppFold_errs_mono now st l₂ _ e ?_
      unfold ppStep
      rw [herr]
      simp
    exact List.ne_nil_of_mem (hstep _)

/-- C9 witness: one failing and one succeeding hook after a response
fragment is stored. -/
theorem postProcessFailure_nonfatal_witness :
    (∀ g ∈ (storeFragment 7 ⟨"f1", "agent", "s", "resp", none, [], 0⟩
        ⟨[⟨"agent", "agent", true⟩], [⟨"s"⟩], [], []⟩).2.frags,
      g ∈ (enginePostProcess
        [⟨"insight", fun _ => .error "pp-fail"⟩,
          ⟨"personality", fun _ => .ok []⟩]
        ⟨"f1", "agent", "s", "resp", none, [], 0⟩ 7 ⟨"u", "s", "hello", [], []⟩
        ⟨[⟨"agent", "agent", true⟩], [⟨"s"⟩], [], []⟩).1.frags) ∧
    (∀ g', (storeFragment 7 ⟨"f1", "agent", "s", "resp", none, [], 0⟩
        ⟨[⟨"agent", "agent", true⟩], [⟨"s"⟩], [], []⟩).1 = .ok g' →
      g' ∈ (enginePostProcess
        [⟨"insight", fun _ => .error "pp-fail"⟩,
          ⟨"personality", fun _ => .ok []⟩]
        ⟨"f1", "agent", "s", "resp", none, [], 0⟩ 7 ⟨"u", "s", "hello", [], []⟩
        ⟨[⟨"agent", "agent", true⟩], [⟨"s"⟩], [], []⟩).1.frags) ∧
    (enginePostProcess
      [⟨"insight", fun _ => .error "pp-fail"⟩,
        ⟨"personality", fun _ => .ok []⟩]
      ⟨"f1", "agent", "s", "resp", none, [], 0⟩ 7 ⟨"u", "s", "hello", [], []⟩
      ⟨[⟨"agent", "agent", true⟩], [⟨"s"⟩], [], []⟩).2 ≠ [] :=
  postProcessFailure_nonfatal
    [⟨"insight", fun _ => .error "pp-fail"⟩, ⟨"personality", fun _ => .ok []⟩]
    ⟨"f1", "agent", "s", "resp", none, [], 0⟩ 7 ⟨"u", "s", "hello", [], []⟩
    ⟨[⟨"agent", "agent", true⟩], [⟨"s"⟩], [], []⟩
    ⟨"insight", fun _ => .error "pp-fail"⟩ (by simp) "pp-fail" rfl

/-! ## Partition isolation (C10) -/

/-- C10: a `FragmentStore` is bound at construction to exactly one fragment
table; its store, upsert and query operations touch only that partition —
writes leave every other partition unchanged, the write to the bound
partition is the append, and query results depend only on the bound
partition's contents — and the chat example's three stores (interaction,
personality, insight) are bound to pairwise distinct partitions. -/
theorem fragmentStore_partition_isolation :
    (∀ t, (NewFragmentStore t).fragmentTable = t) ∧
    (∀ (fs : FragmentStore) (g : Fragment) (db : DB) (t : FragmentTable),
      t ≠ fs.fragmentTable → fs.storeFragDB g db t = db t) ∧
    (∀ (fs : FragmentStore) (g : Fragment) (db : DB),
      fs.storeFragDB g db fs.fragmentTable = db fs.fragmentTable ++ [g]) ∧
    (∀ (fs : FragmentStore) (g : Fragment) (db : DB) (t : FragmentTable),
      t ≠ fs.fragmentTable → fs.upsertFragDB g db t = db t) ∧
    (∀ (fs : FragmentStore) (f : FragmentFilter) (db₁ db₂ : DB),
      db₁ fs.fragmentTable = db₂ fs.fragmentTable →
      fs.queryDB f db₁ = fs.queryDB f db₂) ∧
    ((NewFragmentStore FragmentTable.interaction).fragmentTable ≠
        (NewFragmentStore FragmentTable.personality).fragmentTable ∧
      (NewFragmentStore FragmentTable.interaction).fragmentTable ≠
        (NewFragmentStore FragmentTable.insight).fragmentTable ∧
      (NewFragmentStore FragmentTable.personality).fragmentTable ≠
        (NewFragmentStore FragmentTable.insight).fragmentTable) := by
  refine ⟨fun t => rfl, ?_, ?_, ?_, ?_, by decide, by decide, by decide⟩
  · intro fs g db t ht
    unfold FragmentStore.storeFragDB
    rw [if_neg ht]
  · intro fs g db
    unfold FragmentStore.storeFragDB
    rw [if_pos rfl]
  · intro fs g db t ht
    unfold FragmentStore.upsertFragDB
    rw [if_neg ht]
  · intro fs f db₁ db₂ hdb
    unfold FragmentStore.queryDB
    rw [hdb]

/-- C10 witness: the interaction store's write is invisible to the
personality partition and appends to its own. -/
theorem fragmentStore_partition_isolation_witness :
    (NewFragmentStore FragmentTable.interaction).storeFragDB
        ⟨"f1", "u", "s", "hi", none, [], 5⟩ (fun _ => []) FragmentTable.personality =
      (fun _ => ([] : List Fragment)) FragmentTable.personality ∧
    (NewFragmentStore FragmentTable.interaction).storeFragDB
        ⟨"f1", "u", "s", "hi", none, [], 5⟩ (fun _ => []) FragmentTable.interaction =
      (fun _ => ([] : List Fragment)) FragmentTable.interaction ++
        [⟨"f1", "u", "s", "hi", none, [], 5⟩] :=
  ⟨fragmentStore_partition_isolation.2.1 (NewFragmentStore FragmentTable.interaction)
      ⟨"f1", "u", "s", "hi", none, [], 5⟩ (fun _ => []) FragmentTable.personality
      (by decide),
   fragmentStore_partition_isolation.2.2.1 (NewFragmentStore FragmentTable.interaction)
      ⟨"f1", "u", "s", "hi", none, [], 5⟩ (fun _ => [])⟩

end Nova
